import Mathlib

/-!
Shallow embedding of the Coxeter-matrix-group constructor
(`src/sage/groups/matrix_gps/coxeter_group.py`) and of the regular
super-crystal digraph construction
(`src/sage/categories/regular_supercrystals.py`), together with proofs
about the finiteness classifier, the generator matrices, the bilinear
form, the matrix/graph round trip, input validation and the crystal
digraph.

Coxeter matrices are embedded as functions `Fin n → Fin n → ℤ`; the
infinity label is the sentinel `-1`, exactly as in the source.  The
algebraic values `2·cos(π/m)` live in `ℝ` via `Real.cos`.  Graph
services that the source consumes as black boxes (connected components,
eccentricity, tree test) are modelled by executable reachability
functions on the same adjacency relation the source builds.
-/

namespace Sage

variable {n : ℕ}

/-- Validity of a Coxeter matrix, as enforced by
`CoxeterMatrixGroup.__classcall_private__`: symmetric, unit diagonal,
and every off-diagonal entry either `≥ 2` or the infinity sentinel `-1`. -/
def IsCoxeterMatrix (M : Fin n → Fin n → ℤ) : Prop :=
  (∀ i j, M i j = M j i) ∧ (∀ i, M i i = 1) ∧
    ∀ i j, i ≠ j → 2 ≤ M i j ∨ M i j = -1

instance (M : Fin n → Fin n → ℤ) : Decidable (IsCoxeterMatrix M) := by
  unfold IsCoxeterMatrix; infer_instance

/-- Build an `n × n` integer matrix from a list of rows (missing entries
default to `0`); used only to write down concrete test matrices. -/
def matOf (m : ℕ) (rows : List (List ℤ)) : Fin m → Fin m → ℤ :=
  fun i j => (rows.getD i.val []).getD j.val 0

/-- The validation stage for a literal matrix
(`__classcall_private__`, lines 250-256): it raises when the matrix is
not symmetric, when a diagonal entry differs from `1`, or when an entry
of the strict upper triangle (`row[i+1:]`) is `≤ 1` and not `-1`. -/
def validationRaises (M : Fin n → Fin n → ℤ) : Bool :=
  if ¬ ∀ i j, M i j = M j i then true
  else if ∃ i, M i i ≠ 1 then true
  else if ∃ i j : Fin n, i < j ∧ M i j ≤ 1 ∧ M i j ≠ -1 then true
  else false

/-! ### The unlabeled diagram graph and its components

The source builds an adjacency matrix with an entry `1` whenever
`coxeter_matrix[i, j] not in [1, 2]` (lines 366-371) and takes connected
components of the resulting graph.  We embed reachability directly. -/

/-- Adjacency of the unlabeled Coxeter diagram: entries not in `[1, 2]`. -/
def adjB (M : Fin n → Fin n → ℤ) (u v : Fin n) : Bool :=
  decide (M u v ≠ 1 ∧ M u v ≠ 2)

/-- `reachN M k u v` holds when there is a walk of length at most `k`
from `u` to `v` in the unlabeled diagram graph. -/
def reachN (M : Fin n → Fin n → ℤ) : ℕ → Fin n → Fin n → Bool
  | 0, u, v => u == v
  | k + 1, u, v =>
      reachN M k u v || (List.finRange n).any fun w => reachN M k u w && adjB M w v

/-- The connected component of `v`, listed in increasing vertex order
(sage's `connected_components` also returns sorted vertex lists). -/
def component (M : Fin n → Fin n → ℤ) (v : Fin n) : List (Fin n) :=
  (List.finRange n).filter fun j => reachN M n v j

/-- The list of off-diagonal Coxeter labels of all unordered pairs drawn
from `comp` (the source's `mentries`, one entry per pair). -/
def pairLabels (M : Fin n → Fin n → ℤ) : List (Fin n) → List ℤ
  | [] => []
  | c :: cs => (cs.map fun d => M c d) ++ pairLabels M cs

/-- Sorting an integer list, as python's `sorted`. -/
def sortZ (l : List ℤ) : List ℤ := l.insertionSort (· ≤ ·)

/-- Sorting a list of naturals, as python's `sorted`. -/
def sortN (l : List ℕ) : List ℕ := l.insertionSort (· ≤ ·)

/-! ### Distances inside an induced subgraph

These model the external graph services `subgraph`, `eccentricity`,
`diameter`, `shortest_path` and `is_tree` used on `G0 = G.subgraph(comp)`
(lines 419, 433-452). -/

/-- Walks of length at most `k` from `u` to `v` whose vertices stay in
`comp` (the induced subgraph `G0`). -/
def reachInLe (M : Fin n → Fin n → ℤ) (comp : List (Fin n)) :
    ℕ → Fin n → Fin n → Bool
  | 0, u, v => u == v
  | k + 1, u, v =>
      reachInLe M comp k u v ||
        comp.any fun w => reachInLe M comp k u w && adjB M w v

/-- Graph distance from `u` to `v` inside the induced subgraph on
`comp`; `comp.length + 1` when `v` is unreachable (standing in for the
infinite distance sage reports). -/
def distIn (M : Fin n → Fin n → ℤ) (comp : List (Fin n)) (u v : Fin n) : ℕ :=
  (((List.range (comp.length + 1)).find? fun k =>
      reachInLe M comp k u v)).getD (comp.length + 1)

/-- Eccentricity of `v` inside the induced subgraph on `comp`. -/
def eccIn (M : Fin n → Fin n → ℤ) (comp : List (Fin n)) (v : Fin n) : ℕ :=
  (comp.map (distIn M comp v)).foldr max 0

/-- Diameter of the induced subgraph on `comp`. -/
def diameterIn (M : Fin n → Fin n → ℤ) (comp : List (Fin n)) : ℕ :=
  (comp.map (eccIn M comp)).foldr max 0

/-- Number of edges of the induced subgraph on `comp`. -/
def edgeCount (M : Fin n → Fin n → ℤ) : List (Fin n) → ℕ
  | [] => 0
  | c :: cs => cs.countP (adjB M c) + edgeCount M cs

/-- Connectivity of the induced subgraph on `comp`. -/
def connectedIn (M : Fin n → Fin n → ℤ) (comp : List (Fin n)) : Bool :=
  comp.all fun u => comp.all fun v => reachInLe M comp comp.length u v

/-- Models the external service `Graph.is_tree` on the induced subgraph:
connected with one edge fewer than vertices. -/
def isTree (M : Fin n → Fin n → ℤ) (comp : List (Fin n)) : Bool :=
  connectedIn M comp && (edgeCount M comp + 1 == comp.length)

/-- The neighbour of `u` inside `comp` that lies one step closer to `v`
(the vertex following `u` on a shortest path from `u` to `v`, taking the
smallest such vertex; on the code path where the source reads entries of
`G0.shortest_path`, the distance condition `diameter = l - 1` forces the
path to be unique, so the choice is immaterial). -/
def pathNext (M : Fin n → Fin n → ℤ) (comp : List (Fin n)) (u v : Fin n) :
    Option (Fin n) :=
  comp.find? fun w => adjB M u w && (distIn M comp w v + 1 == distIn M comp u v)

/-- Lexicographic order on (eccentricity, vertex) pairs, matching
python's sort of the tuples `(u, v)` built from
`G0.eccentricity(with_labels=True)` (line 437). -/
def pairLE (a b : ℕ × Fin n) : Prop :=
  a.1 < b.1 ∨ (a.1 = b.1 ∧ a.2 ≤ b.2)

instance : DecidableRel (pairLE (n := n)) := fun a b => by
  unfold pairLE; infer_instance

/-- Sorting (eccentricity, vertex) pairs lexicographically. -/
def sortPairs (l : List (ℕ × Fin n)) : List (ℕ × Fin n) :=
  l.insertionSort pairLE

/-! ### The finiteness classifier (lines 372-462) -/

/-- The `l == 3` test: sorted labels `[2, 3, m]` with `m ∈ {3, 4, 5}`. -/
def threeCheck (M : Fin n → Fin n → ℤ) (c0 c1 c2 : Fin n) : Bool :=
  match sortZ [M c0 c1, M c0 c2, M c1 c2] with
  | [a, b, c] => decide (a = 2 ∧ b = 3 ∧ (c = 3 ∨ c = 4 ∨ c = 5))
  | _ => false

/-- The `l == 4` test (lines 395-417): the six pairwise labels in the
source's order, their sort, and the four per-vertex label sums. -/
def fourCheck (M : Fin n → Fin n → ℤ) (c0 c1 c2 c3 : Fin n) : Bool :=
  let s := sortZ [M c0 c1, M c0 c2, M c0 c3, M c1 c2, M c1 c3, M c2 c3]
  if s.take 5 = [2, 2, 2, 3, 3] then
    if s.getD 5 0 = 3 then true
    else if s.getD 5 0 = 4 ∨ s.getD 5 0 = 5 then
      let ss := sortZ [M c0 c1 + M c0 c2 + M c0 c3,
                       M c0 c1 + M c1 c2 + M c1 c3,
                       M c0 c2 + M c1 c2 + M c2 c3,
                       M c0 c3 + M c1 c3 + M c2 c3]
      decide (ss = [7, 7, 9, 9] ∨ ss = [7, 8, 8, 9] ∨ ss = [7, 8, 9, 10])
    else false
  else false

/-- The eccentricity test of the all-labels-in-`{2,3}` branch
(lines 452-458). -/
def eccCheck (M : Fin n → Fin n → ℤ) (comp : List (Fin n)) : Bool :=
  let l := comp.length
  let e := sortN (comp.map (eccIn M comp))
  if e.getD (e.length - 1) 0 = l - 1 then true
  else if e.getD (e.length - 3) 0 = l - 2 then true
  else if l ≤ 8 ∧ e.getD (e.length - 2) 0 = l - 2 ∧
      e.getD (e.length - 5) 0 = l - 3 then true
  else false

/-- The branch for a single label `4` in a large component
(lines 433-447): path-shaped diameter plus a label-4 test at an end. -/
def diamBranch (M : Fin n → Fin n → ℤ) (comp : List (Fin n)) : Bool :=
  if diameterIn M comp ≠ comp.length - 1 then false
  else
    let ep := sortPairs (comp.map fun v => (eccIn M comp v, v))
    match ep.getLast?, ep.dropLast.getLast? with
    | some lend, some rend =>
      match pathNext M comp lend.2 rend.2, pathNext M comp rend.2 lend.2 with
      | some la, some ra => decide (M lend.2 la = 4 ∨ M rend.2 ra = 4)
      | _, _ => false
    | _, _ => false

/-- The `l >= 5` case of the classifier (lines 418-460). -/
def bigCheck (M : Fin n → Fin n → ℤ) (comp : List (Fin n)) : Bool :=
  let s := sortZ (pairLabels M comp)
  if s.getD 0 0 < 0 then false
  else if 3 < s.getD (s.length - 1) 0 then
    if 3 < s.getD (s.length - 2) 0 then false
    else if 4 < s.getD (s.length - 1) 0 then false
    else diamBranch M comp
  else if isTree M comp then eccCheck M comp
  else false

/-- Whether one connected component passes the finite-type test,
dispatching on its size exactly as the source's `for comp in comps`
body does. -/
def componentFinite (M : Fin n → Fin n → ℤ) (comp : List (Fin n)) : Bool :=
  match comp with
  | [] => true
  | [_] => true
  | [c0, c1] => decide (0 < M c0 c1)
  | [c0, c1, c2] => threeCheck M c0 c1 c2
  | [c0, c1, c2, c3] => fourCheck M c0 c1 c2 c3
  | big => bigCheck M big

/-- The finiteness flag computed at construction: every connected
component passes its size test.  (The source iterates over the distinct
components; iterating over one representative per vertex tests exactly
the same component lists, since `component M i` is the same sorted list
for every `i` in a given component.) -/
def finiteB (M : Fin n → Fin n → ℤ) : Bool :=
  (List.finRange n).all fun i => componentFinite M (component M i)

/-! ### The reflection representation and the bilinear form

`__init__` (lines 336-360) computes `val(m) = 2·cos(π/m)` (with `2` for
the sentinel `-1`), builds `gens[i] = MS.one() + MC(MS, entries={(i, j):
val(M[i, j]) for j})` — a perturbation living in **row** `i` — and the
bilinear form with entries `val(M[i, j]) / (-2)` wherever `M[i, j] ≠ 2`. -/

/-- The value `2·cos(π/m)`, and `2` for the infinity sentinel `-1`. -/
noncomputable def valR (m : ℤ) : ℝ :=
  if m = -1 then 2 else 2 * Real.cos (Real.pi / (m : ℝ))

/-- The `i`-th generator matrix of the reflection representation:
the identity plus the row-`i` perturbation with entries
`val(M[i, k])` (including the diagonal entry `val(M[i, i]) = val(1)`). -/
noncomputable def genMat (M : Fin n → Fin n → ℤ) (i : Fin n) :
    Matrix (Fin n) (Fin n) ℝ :=
  1 + Matrix.of fun j k => if j = i then valR (M i k) else 0

/-- The generator matrix as described by the spec sentence of claim C1
(for comparison only): identity plus a perturbation confined to
**column** `i`, with entries `val(M[j, i])` for `j ≠ i` and `0` at
`(i, i)`. -/
noncomputable def genColClaimed (M : Fin n → Fin n → ℤ) (i : Fin n) :
    Matrix (Fin n) (Fin n) ℝ :=
  1 + Matrix.of fun j k => if k = i ∧ j ≠ i then valR (M j i) else 0

/-- The bilinear form of the Coxeter system (lines 350-360): entry
`val(M[i, j]) / (-2)` wherever `M[i, j] ≠ 2`, and the sparse zero
elsewhere. -/
noncomputable def bilinearForm (M : Fin n → Fin n → ℤ) :
    Matrix (Fin n) (Fin n) ℝ :=
  Matrix.of fun i j => if M i j = 2 then 0 else valR (M i j) / (-2)

/-! ### The Coxeter graph and the graph-to-matrix conversion

`coxeter_graph` (lines 516-546) emits, for each upper pair `i < j`, an
unlabeled edge for label `3`, a numeric label for labels `> 3`, and an
infinity label for the sentinel `-1`.  The graph branch of
`__classcall_private__` (lines 221-244) converts a labeled graph back to
a matrix, indexing rows by the **sorted** vertex list `G.vertices()`. -/

/-- Edge data of a labeled Coxeter graph: an unlabeled edge, a numeric
label, or the infinity label. -/
inductive CoxLabel : Type
  | unlabeled : CoxLabel
  | num : ℤ → CoxLabel
  | inf : CoxLabel
deriving DecidableEq

/-- The edge (if any) that `coxeter_graph` emits for the pair `(i, j)`. -/
def coxeterGraphEdge (M : Fin n → Fin n → ℤ) (i j : Fin n) : Option CoxLabel :=
  if M i j = 3 then some CoxLabel.unlabeled
  else if 3 < M i j then some (CoxLabel.num (M i j))
  else if M i j = -1 then some CoxLabel.inf
  else none

/-- The matrix entry the graph branch of `__classcall_private__` writes
for an edge label (`None → 3`, `infinity`/`-1 → -1`, else the label). -/
def entryOfLabel : CoxLabel → ℤ
  | CoxLabel.unlabeled => 3
  | CoxLabel.inf => -1
  | CoxLabel.num m => if m = -1 then -1 else m

/-- Index labels assigned to the rows, as a function to ℤ (standing in
for sage's arbitrary sortable vertex labels). -/
def labOf (m : ℕ) (l : List ℤ) : Fin m → ℤ := fun i => l.getD i.val 0

/-- The sorted vertex list `G.vertices()` of the Coxeter graph. -/
def sortedLabels (lab : Fin n → ℤ) : List ℤ :=
  sortZ ((List.finRange n).map lab)

/-- The original row index carrying the `p`-th smallest label (the
vertex `verts[p]` of the reconstruction). -/
def invLab (lab : Fin n → ℤ) (p : Fin n) : Option (Fin n) :=
  (List.finRange n).find? fun i => decide (lab i = (sortedLabels lab).getD p 0)

/-- The matrix entry contributed by an optional edge: the translated
label when the edge exists, and the default `2` otherwise. -/
def edgeEntry : Option CoxLabel → ℤ
  | some l => entryOfLabel l
  | none => 2

/-- The Coxeter matrix rebuilt from the labeled Coxeter graph by the
graph branch of `__classcall_private__`: entry `(p, q)` is read off the
edge joining the `p`-th and `q`-th smallest vertex labels, defaulting
to `2` off the diagonal and `1` on it. -/
def rebuiltMatrix (M : Fin n → Fin n → ℤ) (lab : Fin n → ℤ) (p q : Fin n) : ℤ :=
  if p = q then 1
  else
    match invLab lab p, invLab lab q with
    | some i, some j =>
        edgeEntry (if i < j then coxeterGraphEdge M i j else coxeterGraphEdge M j i)
    | _, _ => 2

/-! ### The crystal digraph (`regular_supercrystals.py`, lines 38-74)

`digraph` fills a dict of dicts: `d[x][y] = i` for every index `i` and
element `x` with `x.f(i) = y`, so a later index **overwrites** an
earlier one on the same ordered pair `(x, y)`. -/

/-- A finite crystal interface: an element list, an index list, and the
lowering maps `f`. -/
structure FinCrystal (X I : Type) where
  elems : List X
  index : List I
  f : I → X → Option X

/-- The label stored at `d[x][y]` after the double loop of `digraph`:
iterating the indices in order, each hit overwrites the previous one. -/
def edgeLabel {X I : Type} [DecidableEq X] (c : FinCrystal X I) (x y : X) :
    Option I :=
  c.index.foldl (fun acc i => if c.f i x = some y then some i else acc) none

/-- The property asserted by claim C8 for the edges: every pair
`(x, i)` with `f i x = y` contributes its own edge labeled `i`. -/
def DigraphClaimC8 {X I : Type} [DecidableEq X] [DecidableEq I]
    (c : FinCrystal X I) : Prop :=
  ∀ x ∈ c.elems, ∀ i ∈ c.index, ∀ y ∈ (c.f i x).toList, edgeLabel c x y = some i

instance {X I : Type} [DecidableEq X] [DecidableEq I] (c : FinCrystal X I) :
    Decidable (DigraphClaimC8 c) := by
  unfold DigraphClaimC8; infer_instance

/-- Vertices of the digraph built from a dict of dicts: the outer keys
(all elements) together with every inner key (every `f`-image). -/
def digraphVertex {X I : Type} (c : FinCrystal X I) (v : X) : Prop :=
  v ∈ c.elems ∨ ∃ z ∈ c.elems, ∃ i ∈ c.index, c.f i z = some v

/-- A two-element crystal on which two distinct indices produce the same
lowering step, exhibiting the dict-of-dicts overwrite. -/
def crystalEx : FinCrystal Bool ℤ :=
  ⟨[false, true], [1, 2], fun _ x => if x = false then some true else none⟩

/-! ### Supporting lemmas -/

lemma valR_one : valR 1 = -2 := by
  have h1 : ((1 : ℤ) : ℝ) = 1 := by norm_num
  simp [valR, h1, Real.cos_pi]

lemma valR_neg_one : valR (-1) = 2 := by simp [valR]

lemma mem_sortZ {l : List ℤ} {x : ℤ} : x ∈ sortZ l ↔ x ∈ l :=
  (List.perm_insertionSort _ l).mem_iff

lemma length_sortZ (l : List ℤ) : (sortZ l).length = l.length :=
  (List.perm_insertionSort _ l).length_eq

lemma sortZ_sorted (l : List ℤ) : (sortZ l).Sorted (· ≤ ·) :=
  List.sorted_insertionSort _ l

lemma getD_mem {l : List ℤ} {k : ℕ} (hk : k < l.length) : l.getD k 0 ∈ l := by
  rw [List.getD_eq_get l 0 hk]
  exact l.get_mem k hk

lemma sorted_getD_mono {l : List ℤ} (hs : l.Sorted (· ≤ ·)) {a b : ℕ}
    (hab : a ≤ b) (hb : b < l.length) : l.getD a 0 ≤ l.getD b 0 := by
  rcases eq_or_lt_of_le hab with rfl | hlt
  · exact le_refl _
  · have ha : a < l.length := lt_trans hlt hb
    rw [List.getD_eq_get l 0 ha, List.getD_eq_get l 0 hb]
    exact hs.rel_get_of_lt hlt

lemma sorted_getD_zero_le {l : List ℤ} (hs : l.Sorted (· ≤ ·)) {x : ℤ}
    (hx : x ∈ l) : l.getD 0 0 ≤ x := by
  cases l with
  | nil => cases hx
  | cons a t =>
    rcases List.mem_cons.mp hx with rfl | hxt
    · exact le_refl _
    · exact (List.sorted_cons.mp hs).1 x hxt

lemma pairLabels_length_lower (M : Fin n → Fin n → ℤ) (comp : List (Fin n)) :
    comp.length - 1 ≤ (pairLabels M comp).length := by
  cases comp with
  | nil => simp
  | cons c cs =>
    simp only [pairLabels, List.length_append, List.length_map, List.length_cons]
    omega

lemma componentFinite_big (M : Fin n → Fin n → ℤ) (comp : List (Fin n))
    (h : 5 ≤ comp.length) : componentFinite M comp = bigCheck M comp := by
  match comp, h with
  | c0 :: c1 :: c2 :: c3 :: c4 :: rest, _ => rfl

lemma finiteB_false_of_component (M : Fin n → Fin n → ℤ) (v : Fin n)
    (hf : componentFinite M (component M v) = false) : finiteB M = false := by
  rcases Bool.eq_false_or_eq_true (finiteB M) with h | h
  case inr => exact h
  · exfalso
    have hall : ((List.finRange n).all fun i =>
        componentFinite M (component M i)) = true := h
    have hv := List.all_eq_true.mp hall v (List.mem_finRange v)
    rw [hf] at hv
    exact Bool.false_ne_true hv

/-! ### Claim C9: matrix validation -/

/-- C9: constructing a group from a literal square integer matrix raises
a validation error if and only if the matrix is not symmetric, or some
diagonal entry differs from `1`, or some off-diagonal entry is `≤ 1` and
is not the infinity sentinel `-1`; when none of these hold the
matrix-validation stage succeeds. -/
theorem c9_validation_iff (M : Fin n → Fin n → ℤ) :
    validationRaises M = true ↔
      (¬ ∀ i j, M i j = M j i) ∨ (∃ i, M i i ≠ 1) ∨
        ∃ i j : Fin n, i ≠ j ∧ M i j ≤ 1 ∧ M i j ≠ -1 := by
  unfold validationRaises
  by_cases hsym : ∀ i j, M i j = M j i
  · rw [if_neg (not_not_intro hsym)]
    by_cases hdiag : ∃ i, M i i ≠ 1
    · rw [if_pos hdiag]
      exact iff_of_true rfl (Or.inr (Or.inl hdiag))
    · rw [if_neg hdiag]
      by_cases hupper : ∃ i j : Fin n, i < j ∧ M i j ≤ 1 ∧ M i j ≠ -1
      · rw [if_pos hupper]
        obtain ⟨i, j, hij, hle, hne⟩ := hupper
        exact iff_of_true rfl (Or.inr (Or.inr ⟨i, j, ne_of_lt hij, hle, hne⟩))
      · rw [if_neg hupper]
        refine iff_of_false (by simp) ?_
        rintro (hbad | hbad | ⟨i, j, hne, hle, hne1⟩)
        · exact hbad hsym
        · exact hdiag hbad
        · rcases lt_or_gt_of_ne hne with hlt | hgt
          · exact hupper ⟨i, j, hlt, hle, hne1⟩
          · refine hupper ⟨j, i, hgt, ?_, ?_⟩
            · rw [← hsym i j]; exact hle
            · rw [← hsym i j]; exact hne1
  · rw [if_pos hsym]
    exact iff_of_true rfl (Or.inl hsym)

/-! ### Claim C2: the reference finiteness cases -/

/-- C2 counterexample: the classifier marks the Coxeter matrix
`[[1,6,3],[6,1,10],[3,10,1]]` as infinite (its three-vertex component
has sorted labels `[3,6,10]`, failing the `[2,3,m]` pattern), whereas
the claim calls it finite. -/
theorem c2_counterexample :
    finiteB (matOf 3 [[1, 6, 3], [6, 1, 10], [3, 10, 1]]) = false := by decide

/-- C2 amended: the finiteness flag on the four reference matrices is
finite, finite, infinite, infinite respectively. -/
theorem c2_reference_cases :
    finiteB (matOf 2 [[1, 3], [3, 1]]) = true ∧
    finiteB (matOf 3 [[1, 3, 2], [3, 1, 3], [2, 3, 1]]) = true ∧
    finiteB (matOf 3 [[1, 6, 3], [6, 1, 10], [3, 10, 1]]) = false ∧
    finiteB (matOf 2 [[1, -1], [-1, 1]]) = false := by decide

/-! ### Claim C4: immediate rejection for large components -/

/-- C4: for a connected component with at least 5 vertices, if some
pairwise label is negative (the infinity sentinel), or the two largest
labels both exceed 3, or the largest label exceeds 5, the whole group is
classified infinite. -/
theorem c4_large_component_reject (M : Fin n → Fin n → ℤ)
    (h : IsCoxeterMatrix M) (v : Fin n)
    (hl : 5 ≤ (component M v).length)
    (hcond :
      (∃ x ∈ pairLabels M (component M v), x < 0) ∨
      3 < (sortZ (pairLabels M (component M v))).getD
            ((sortZ (pairLabels M (component M v))).length - 2) 0 ∨
      5 < (sortZ (pairLabels M (component M v))).getD
            ((sortZ (pairLabels M (component M v))).length - 1) 0) :
    finiteB M = false := by
  apply finiteB_false_of_component M v
  set comp := component M v with hcomp
  set s := sortZ (pairLabels M comp) with hsdef
  have hslen : 4 ≤ s.length := by
    have := pairLabels_length_lower M comp
    rw [hsdef, length_sortZ]
    omega
  have hsorted : s.Sorted (· ≤ ·) := sortZ_sorted _
  -- the three rejection conditions force the three early branches
  have hneg : (∃ x ∈ pairLabels M comp, x < 0) → s.getD 0 0 < 0 := by
    rintro ⟨x, hx, hx0⟩
    exact lt_of_le_of_lt (sorted_getD_zero_le hsorted (mem_sortZ.mpr hx)) hx0
  have hpen_le_last : s.getD (s.length - 2) 0 ≤ s.getD (s.length - 1) 0 :=
    sorted_getD_mono hsorted (by omega) (by omega)
  rw [componentFinite_big M comp hl]
  have hbc : bigCheck M comp =
      (if s.getD 0 0 < 0 then false
       else if 3 < s.getD (s.length - 1) 0 then
         if 3 < s.getD (s.length - 2) 0 then false
         else if 4 < s.getD (s.length - 1) 0 then false
         else diamBranch M comp
       else if isTree M comp then eccCheck M comp else false) := by
    rw [hsdef]; rfl
  rw [hbc]
  split_ifs with h1 h2 h3 h4 h5
  · rfl
  · rfl
  · rfl
  · -- branch with ¬(penultimate > 3) and ¬(largest > 4): contradicts hcond
    exfalso
    rcases hcond with hc | hc | hc
    · exact h1 (hneg hc)
    · exact h3 hc
    · exact h4 (by omega)
  · exfalso
    -- branch with largest ≤ 3: contradicts hcond
    rcases hcond with hc | hc | hc
    · exact h1 (hneg hc)
    · exact h2 (lt_of_lt_of_le hc hpen_le_last)
    · exact h2 (by omega)
  · rfl

/-! ### Claim C5: large components with labels 2 and 3 -/

/-- C5: a connected component with at least 5 vertices, all of whose
pairwise labels are 2 or 3, passes the finite-type test iff its induced
subgraph is a tree and its sorted eccentricity list satisfies one of:
the largest eccentricity is `l-1`, the third-largest is `l-2`, or
`l ≤ 8` with second-largest `l-2` and fifth-largest `l-3`. -/
theorem c5_large_component_tree (M : Fin n → Fin n → ℤ)
    (h : IsCoxeterMatrix M) (v : Fin n)
    (hl : 5 ≤ (component M v).length)
    (hlab : ∀ x ∈ pairLabels M (component M v), x = 2 ∨ x = 3) :
    componentFinite M (component M v) = true ↔
      (isTree M (component M v) = true ∧
        ((sortN ((component M v).map (eccIn M (component M v)))).getD
            ((sortN ((component M v).map (eccIn M (component M v)))).length - 1) 0
              = (component M v).length - 1 ∨
         (sortN ((component M v).map (eccIn M (component M v)))).getD
            ((sortN ((component M v).map (eccIn M (component M v)))).length - 3) 0
              = (component M v).length - 2 ∨
         ((component M v).length ≤ 8 ∧
          (sortN ((component M v).map (eccIn M (component M v)))).getD
             ((sortN ((component M v).map (eccIn M (component M v)))).length - 2) 0
               = (component M v).length - 2 ∧
          (sortN ((component M v).map (eccIn M (component M v)))).getD
             ((sortN ((component M v).map (eccIn M (component M v)))).length - 5) 0
               = (component M v).length - 3))) := by
  set comp := component M v with hcomp
  set s := sortZ (pairLabels M comp) with hsdef
  set e := sortN (comp.map (eccIn M comp)) with hedef
  have hslen : 4 ≤ s.length := by
    have := pairLabels_length_lower M comp
    rw [hsdef, length_sortZ]
    omega
  have hsorted : s.Sorted (· ≤ ·) := sortZ_sorted _
  have hmem23 : ∀ k, k < s.length → s.getD k 0 = 2 ∨ s.getD k 0 = 3 := by
    intro k hk
    exact hlab _ (mem_sortZ.mp (getD_mem hk))
  have h0 : ¬ s.getD 0 0 < 0 := by
    rcases hmem23 0 (by omega) with h2 | h3 <;> omega
  have hlast : ¬ 3 < s.getD (s.length - 1) 0 := by
    rcases hmem23 (s.length - 1) (by omega) with h2 | h3 <;> omega
  rw [componentFinite_big M comp hl]
  have hbc0 : bigCheck M comp =
      (if s.getD 0 0 < 0 then false
       else if 3 < s.getD (s.length - 1) 0 then
         if 3 < s.getD (s.length - 2) 0 then false
         else if 4 < s.getD (s.length - 1) 0 then false
         else diamBranch M comp
       else if isTree M comp then eccCheck M comp else false) := by
    rw [hsdef]; rfl
  rw [hbc0, if_neg h0, if_neg hlast]
  cases hT : isTree M comp with
  | false => simp [hT]
  | true =>
    rw [if_pos rfl]
    have hec : eccCheck M comp =
        (if e.getD (e.length - 1) 0 = comp.length - 1 then true
         else if e.getD (e.length - 3) 0 = comp.length - 2 then true
         else if comp.length ≤ 8 ∧ e.getD (e.length - 2) 0 = comp.length - 2 ∧
             e.getD (e.length - 5) 0 = comp.length - 3 then true
         else false) := by
      rw [hedef]; rfl
    rw [hec]
    split_ifs with e1 e2 e3
    · exact iff_of_true rfl ⟨rfl, Or.inl e1⟩
    · exact iff_of_true rfl ⟨rfl, Or.inr (Or.inl e2)⟩
    · exact iff_of_true rfl ⟨rfl, Or.inr (Or.inr e3)⟩
    · refine iff_of_false (by simp) ?_
      rintro ⟨-, hd | hd | hd⟩
      · exact e1 hd
      · exact e2 hd
      · exact e3 hd

/-! ### Claim C3: four-vertex components -/

/-- The sums, one per vertex of a four-vertex component, of the three
Coxeter labels incident to that vertex. -/
def vertexSums (M : Fin n → Fin n → ℤ) (c0 c1 c2 c3 : Fin n) : List ℤ :=
  [M c0 c1 + M c0 c2 + M c0 c3,
   M c1 c0 + M c1 c2 + M c1 c3,
   M c2 c0 + M c2 c1 + M c2 c3,
   M c3 c0 + M c3 c1 + M c3 c2]

/-- C3: a four-vertex connected component passes the finite-type test
iff the six pairwise labels, sorted, start with `[2,2,2,3,3]` and either
the sixth is `3`, or the sixth is `4` or `5` and the sorted per-vertex
label sums are one of `[7,7,9,9]`, `[7,8,8,9]`, `[7,8,9,10]`. -/
theorem c3_four_vertex (M : Fin n → Fin n → ℤ) (h : IsCoxeterMatrix M)
    (v : Fin n) (c0 c1 c2 c3 : Fin n)
    (hc : component M v = [c0, c1, c2, c3]) :
    componentFinite M (component M v) = true ↔
      ((sortZ [M c0 c1, M c0 c2, M c0 c3, M c1 c2, M c1 c3, M c2 c3]).take 5 =
          [2, 2, 2, 3, 3] ∧
        ((sortZ [M c0 c1, M c0 c2, M c0 c3, M c1 c2, M c1 c3, M c2 c3]).getD 5 0
            = 3 ∨
          (((sortZ [M c0 c1, M c0 c2, M c0 c3, M c1 c2, M c1 c3, M c2 c3]).getD
                5 0 = 4 ∨
            (sortZ [M c0 c1, M c0 c2, M c0 c3, M c1 c2, M c1 c3, M c2 c3]).getD
                5 0 = 5) ∧
            (sortZ (vertexSums M c0 c1 c2 c3) = [7, 7, 9, 9] ∨
             sortZ (vertexSums M c0 c1 c2 c3) = [7, 8, 8, 9] ∨
             sortZ (vertexSums M c0 c1 c2 c3) = [7, 8, 9, 10])))) := by
  rw [hc]
  have hvs : vertexSums M c0 c1 c2 c3 =
      [M c0 c1 + M c0 c2 + M c0 c3,
       M c0 c1 + M c1 c2 + M c1 c3,
       M c0 c2 + M c1 c2 + M c2 c3,
       M c0 c3 + M c1 c3 + M c2 c3] := by
    unfold vertexSums
    rw [h.1 c1 c0, h.1 c2 c0, h.1 c2 c1, h.1 c3 c0, h.1 c3 c1, h.1 c3 c2]
  rw [hvs]
  show fourCheck M c0 c1 c2 c3 = true ↔ _
  set s := sortZ [M c0 c1, M c0 c2, M c0 c3, M c1 c2, M c1 c3, M c2 c3]
    with hsdef
  set ss := sortZ [M c0 c1 + M c0 c2 + M c0 c3,
                   M c0 c1 + M c1 c2 + M c1 c3,
                   M c0 c2 + M c1 c2 + M c2 c3,
                   M c0 c3 + M c1 c3 + M c2 c3] with hssdef
  have hfc : fourCheck M c0 c1 c2 c3 =
      (if s.take 5 = [2, 2, 2, 3, 3] then
        if s.getD 5 0 = 3 then true
        else if s.getD 5 0 = 4 ∨ s.getD 5 0 = 5 then
          decide (ss = [7, 7, 9, 9] ∨ ss = [7, 8, 8, 9] ∨ ss = [7, 8, 9, 10])
        else false
      else false) := by
    rw [hsdef, hssdef]; rfl
  rw [hfc]
  split_ifs with h1 h2 h3
  · exact iff_of_true rfl ⟨h1, Or.inl h2⟩
  · rw [decide_eq_true_iff]
    constructor
    · intro hq
      exact ⟨h1, Or.inr ⟨h3, hq⟩⟩
    · rintro ⟨-, hd | ⟨-, hq⟩⟩
      · exact absurd hd h2
      · exact hq
  · refine iff_of_false (by simp) ?_
    rintro ⟨-, hd | ⟨hd, -⟩⟩
    · exact h2 hd
    · exact h3 hd
  · refine iff_of_false (by simp) ?_
    rintro ⟨hd, -⟩
    exact h1 hd

/-! ### Witnesses for C3, C4, C5 -/

/-- Witness for C3: the type `A_4` path matrix has the single component
`[0, 1, 2, 3]`, and the classifier accepts it. -/
theorem c3_witness :
    IsCoxeterMatrix (matOf 4 [[1,3,2,2],[3,1,3,2],[2,3,1,3],[2,2,3,1]]) ∧
    component (matOf 4 [[1,3,2,2],[3,1,3,2],[2,3,1,3],[2,2,3,1]]) 0 =
      [0, 1, 2, 3] ∧
    componentFinite (matOf 4 [[1,3,2,2],[3,1,3,2],[2,3,1,3],[2,2,3,1]])
      (component (matOf 4 [[1,3,2,2],[3,1,3,2],[2,3,1,3],[2,2,3,1]]) 0) =
        true :=
  ⟨by decide, by decide,
    (c3_four_vertex (matOf 4 [[1,3,2,2],[3,1,3,2],[2,3,1,3],[2,2,3,1]])
      (by decide) 0 0 1 2 3 (by decide)).mpr (by decide)⟩

/-- Witness for C4: the rank-5 matrix with every off-diagonal label the
infinity sentinel has one 5-vertex component with a negative label, and
the whole group is classified infinite. -/
theorem c4_witness :
    IsCoxeterMatrix (matOf 5 [[1,-1,-1,-1,-1],[-1,1,-1,-1,-1],
      [-1,-1,1,-1,-1],[-1,-1,-1,1,-1],[-1,-1,-1,-1,1]]) ∧
    5 ≤ (component (matOf 5 [[1,-1,-1,-1,-1],[-1,1,-1,-1,-1],
      [-1,-1,1,-1,-1],[-1,-1,-1,1,-1],[-1,-1,-1,-1,1]]) 0).length ∧
    (∃ x ∈ pairLabels (matOf 5 [[1,-1,-1,-1,-1],[-1,1,-1,-1,-1],
      [-1,-1,1,-1,-1],[-1,-1,-1,1,-1],[-1,-1,-1,-1,1]])
      (component (matOf 5 [[1,-1,-1,-1,-1],[-1,1,-1,-1,-1],
        [-1,-1,1,-1,-1],[-1,-1,-1,1,-1],[-1,-1,-1,-1,1]]) 0), x < 0) ∧
    finiteB (matOf 5 [[1,-1,-1,-1,-1],[-1,1,-1,-1,-1],
      [-1,-1,1,-1,-1],[-1,-1,-1,1,-1],[-1,-1,-1,-1,1]]) = false :=
  ⟨by decide, by decide, ⟨-1, by decide, by decide⟩,
    c4_large_component_reject _ (by decide) 0 (by decide)
      (Or.inl ⟨-1, by decide, by decide⟩)⟩

/-- Witness for C5: the type `A_5` path matrix has one 5-vertex
component with all labels 2 or 3, a path tree whose maximum eccentricity
is 4, and the classifier accepts it. -/
theorem c5_witness :
    IsCoxeterMatrix (matOf 5 [[1,3,2,2,2],[3,1,3,2,2],[2,3,1,3,2],
      [2,2,3,1,3],[2,2,2,3,1]]) ∧
    5 ≤ (component (matOf 5 [[1,3,2,2,2],[3,1,3,2,2],[2,3,1,3,2],
      [2,2,3,1,3],[2,2,2,3,1]]) 0).length ∧
    (∀ x ∈ pairLabels (matOf 5 [[1,3,2,2,2],[3,1,3,2,2],[2,3,1,3,2],
      [2,2,3,1,3],[2,2,2,3,1]])
      (component (matOf 5 [[1,3,2,2,2],[3,1,3,2,2],[2,3,1,3,2],
        [2,2,3,1,3],[2,2,2,3,1]]) 0), x = 2 ∨ x = 3) ∧
    componentFinite (matOf 5 [[1,3,2,2,2],[3,1,3,2,2],[2,3,1,3,2],
      [2,2,3,1,3],[2,2,2,3,1]])
      (component (matOf 5 [[1,3,2,2,2],[3,1,3,2,2],[2,3,1,3,2],
        [2,2,3,1,3],[2,2,2,3,1]]) 0) = true :=
  ⟨by decide, by decide, by decide,
    (c5_large_component_tree (matOf 5 [[1,3,2,2,2],[3,1,3,2,2],[2,3,1,3,2],
        [2,2,3,1,3],[2,2,2,3,1]]) (by decide) 0 (by decide)
      (by decide)).mpr (by decide)⟩

/-! ### Claim C1: the shape of the generator matrices -/

/-- C1 counterexample: for the type `A_2` matrix, the generator built by
the source differs at entry `(0, 0)` from the column-perturbation matrix
described by the claim: the source puts `1 + val(M[0,0]) = -1` there,
the claim `1 + 0 = 1`. -/
theorem c1_counterexample :
    genMat (matOf 2 [[1, 3], [3, 1]]) 0 0 0 ≠
      genColClaimed (matOf 2 [[1, 3], [3, 1]]) 0 0 0 := by
  have hM : matOf 2 [[1, 3], [3, 1]] 0 0 = 1 := rfl
  simp only [genMat, genColClaimed, Matrix.add_apply, Matrix.of_apply,
    Matrix.one_apply_eq, if_pos rfl, hM, valR_one]
  norm_num

/-- C1 amended: the `i`-th generator is the identity outside row `i`;
inside row `i` the diagonal entry is `-1` (the identity plus
`val(M[i,i]) = val(1) = -2`) and the entry in column `k ≠ i` is
`val(M[k,i]) = 2·cos(π/M[k,i])`, which equals `2` when `M[k,i]` is the
infinity sentinel. -/
theorem c1_generator_rows (M : Fin n → Fin n → ℤ) (h : IsCoxeterMatrix M)
    (i : Fin n) :
    (∀ j k, j ≠ i → genMat M i j k = if j = k then 1 else 0) ∧
    genMat M i i i = -1 ∧
    (∀ k, k ≠ i → genMat M i i k = valR (M k i)) ∧
    (∀ k, k ≠ i → M k i = -1 → genMat M i i k = 2) := by
  have happ : ∀ j k, genMat M i j k =
      (if j = k then (1 : ℝ) else 0) + (if j = i then valR (M i k) else 0) := by
    intro j k
    simp [genMat, Matrix.add_apply, Matrix.of_apply, Matrix.one_apply]
  have hrow : ∀ k, k ≠ i → genMat M i i k = valR (M k i) := by
    intro k hk
    rw [happ, if_neg (Ne.symm hk), if_pos rfl, zero_add, h.1 i k]
  refine ⟨?_, ?_, hrow, ?_⟩
  · intro j k hj
    rw [happ, if_neg hj, add_zero]
  · rw [happ, if_pos rfl, if_pos rfl, h.2.1 i, valR_one]
    norm_num
  · intro k hk hm
    rw [hrow k hk, hm, valR_neg_one]

/-- Witness for C1 on the type `A_2` matrix. -/
theorem c1_witness :
    IsCoxeterMatrix (matOf 2 [[1, 3], [3, 1]]) ∧
    ((∀ j k, j ≠ 0 → genMat (matOf 2 [[1, 3], [3, 1]]) 0 j k =
        if j = k then 1 else 0) ∧
      genMat (matOf 2 [[1, 3], [3, 1]]) 0 0 0 = -1 ∧
      (∀ k, k ≠ 0 → genMat (matOf 2 [[1, 3], [3, 1]]) 0 0 k =
        valR (matOf 2 [[1, 3], [3, 1]] k 0)) ∧
      (∀ k, k ≠ 0 → matOf 2 [[1, 3], [3, 1]] k 0 = -1 →
        genMat (matOf 2 [[1, 3], [3, 1]]) 0 0 k = 2)) :=
  ⟨by decide, c1_generator_rows (matOf 2 [[1, 3], [3, 1]]) (by decide) 0⟩

/-! ### Claim C10: the generators are involutions -/

/-- C10: every generator matrix of the reflection representation squares
to the identity. -/
theorem c10_generator_involution (M : Fin n → Fin n → ℤ)
    (h : IsCoxeterMatrix M) (i : Fin n) : genMat M i * genMat M i = 1 := by
  set P : Matrix (Fin n) (Fin n) ℝ :=
    Matrix.of fun j k => if j = i then valR (M i k) else 0 with hP
  have hPP : P * P = -(P + P) := by
    ext j k
    simp only [hP, Matrix.mul_apply, Matrix.of_apply, Matrix.neg_apply,
      Matrix.add_apply]
    by_cases hj : j = i
    · simp only [hj, if_pos rfl, if_true, ite_true, mul_ite, mul_zero,
        ite_mul, zero_mul]
      rw [Finset.sum_ite_eq' Finset.univ i fun m => valR (M i m) * valR (M i k)]
      simp only [Finset.mem_univ, if_pos, h.2.1 i, valR_one]
      ring
    · simp [hj]
  have hg : genMat M i = 1 + P := rfl
  have hexp : (1 + P) * (1 + P) = 1 + (P + P + P * P) := by noncomm_ring
  rw [hg, hexp, hPP]
  abel

/-- Witness for C10 on the type `A_2` matrix. -/
theorem c10_witness :
    IsCoxeterMatrix (matOf 2 [[1, 3], [3, 1]]) ∧
    genMat (matOf 2 [[1, 3], [3, 1]]) 0 * genMat (matOf 2 [[1, 3], [3, 1]]) 0 =
      1 :=
  ⟨by decide, c10_generator_involution (matOf 2 [[1, 3], [3, 1]]) (by decide) 0⟩

/-! ### Claim C7: the bilinear form -/

/-- C7: for a valid Coxeter matrix, `bilinear_form()` is symmetric, has
unit diagonal, off-diagonal entries `-cos(π/M[i,j])` (with `-1` for the
infinity sentinel), and all off-diagonal entries lie in `[-1, 1]`. -/
theorem c7_bilinear_form (M : Fin n → Fin n → ℤ) (h : IsCoxeterMatrix M) :
    (∀ i j, bilinearForm M i j = bilinearForm M j i) ∧
    (∀ i, bilinearForm M i i = 1) ∧
    (∀ i j, i ≠ j → bilinearForm M i j =
      if M i j = -1 then -1 else -Real.cos (Real.pi / (M i j : ℝ))) ∧
    (∀ i j, i ≠ j → -1 ≤ bilinearForm M i j ∧ bilinearForm M i j ≤ 1) := by
  have hform : ∀ i j, i ≠ j → bilinearForm M i j =
      if M i j = -1 then -1 else -Real.cos (Real.pi / (M i j : ℝ)) := by
    intro i j hne
    rcases h.2.2 i j hne with hge | hm1
    · have hne1 : M i j ≠ -1 := by omega
      rw [if_neg hne1]
      by_cases h2 : M i j = 2
      · rw [bilinearForm, Matrix.of_apply, if_pos h2, h2]
        norm_num [Real.cos_pi_div_two]
      · rw [bilinearForm, Matrix.of_apply, if_neg h2, valR, if_neg hne1]
        ring
    · rw [bilinearForm, Matrix.of_apply, if_neg (by omega : M i j ≠ 2), hm1,
        if_pos rfl, valR_neg_one]
      norm_num
  refine ⟨?_, ?_, hform, ?_⟩
  · intro i j
    simp only [bilinearForm, Matrix.of_apply, h.1 i j]
  · intro i
    rw [bilinearForm, Matrix.of_apply, if_neg (by rw [h.2.1 i]; omega),
      h.2.1 i, valR_one]
    norm_num
  · intro i j hne
    rw [hform i j hne]
    by_cases hm1 : M i j = -1
    · rw [if_pos hm1]; norm_num
    · rw [if_neg hm1]
      have h1 := Real.cos_le_one (Real.pi / (M i j : ℝ))
      have h2 := Real.neg_one_le_cos (Real.pi / (M i j : ℝ))
      constructor <;> linarith

/-- Witness for C7 on the type `A_2` matrix. -/
theorem c7_witness :
    IsCoxeterMatrix (matOf 2 [[1, 3], [3, 1]]) ∧
    ((∀ i j, bilinearForm (matOf 2 [[1, 3], [3, 1]]) i j =
        bilinearForm (matOf 2 [[1, 3], [3, 1]]) j i) ∧
      (∀ i, bilinearForm (matOf 2 [[1, 3], [3, 1]]) i i = 1) ∧
      (∀ i j, i ≠ j → bilinearForm (matOf 2 [[1, 3], [3, 1]]) i j =
        if matOf 2 [[1, 3], [3, 1]] i j = -1 then -1
        else -Real.cos (Real.pi / (matOf 2 [[1, 3], [3, 1]] i j : ℝ))) ∧
      (∀ i j, i ≠ j → -1 ≤ bilinearForm (matOf 2 [[1, 3], [3, 1]]) i j ∧
        bilinearForm (matOf 2 [[1, 3], [3, 1]]) i j ≤ 1)) :=
  ⟨by decide, c7_bilinear_form (matOf 2 [[1, 3], [3, 1]]) (by decide)⟩

/-! ### Claim C6: the matrix → graph → matrix round trip -/

/-- C6 counterexample: with index labels `(2, 0, 1)` the reconstruction
reads the vertices back in sorted label order, so entry `(0, 1)` of the
rebuilt matrix is `4` while the original entry is `3`. -/
theorem c6_counterexample :
    rebuiltMatrix (matOf 3 [[1, 3, 2], [3, 1, 4], [2, 4, 1]])
        (labOf 3 [2, 0, 1]) 0 1 ≠
      matOf 3 [[1, 3, 2], [3, 1, 4], [2, 4, 1]] 0 1 := by decide

lemma edgeEntry_roundtrip (M : Fin n → Fin n → ℤ) (h : IsCoxeterMatrix M)
    {i j : Fin n} (hne : i ≠ j) :
    edgeEntry (coxeterGraphEdge M i j) = M i j := by
  rcases h.2.2 i j hne with hge | hm1
  · by_cases h3 : M i j = 3
    · rw [coxeterGraphEdge, if_pos h3]
      simp [edgeEntry, entryOfLabel, h3]
    · by_cases hgt : 3 < M i j
      · rw [coxeterGraphEdge, if_neg h3, if_pos hgt]
        show entryOfLabel (CoxLabel.num (M i j)) = M i j
        rw [entryOfLabel, if_neg (by omega : M i j ≠ -1)]
      · have h2 : M i j = 2 := by omega
        rw [coxeterGraphEdge, if_neg h3, if_neg hgt, if_neg (by omega)]
        simp [edgeEntry, h2]
  · rw [coxeterGraphEdge, if_neg (by omega), if_neg (by omega), if_pos hm1]
    simp [edgeEntry, entryOfLabel, hm1]

lemma find?_eq_some_of_unique {α : Type} (l : List α) (p : α → Bool) (x : α)
    (hx : x ∈ l) (hpx : p x = true)
    (huniq : ∀ y ∈ l, p y = true → y = x) : l.find? p = some x := by
  induction l with
  | nil => cases hx
  | cons a t ih =>
    by_cases hpa : p a = true
    · have hax : a = x := huniq a (List.mem_cons_self a t) hpa
      rw [List.find?_cons_of_pos t hpa, hax]
    · rw [List.find?_cons_of_neg t hpa]
      rcases List.mem_cons.mp hx with rfl | hxt
      · exact absurd hpx hpa
      · exact ih hxt fun y hy hpy => huniq y (List.mem_cons_of_mem a hy) hpy

lemma sortedLabels_of_mono (lab : Fin n → ℤ)
    (hmono : ∀ a b : Fin n, a < b → lab a < lab b) :
    sortedLabels lab = (List.finRange n).map lab := by
  unfold sortedLabels sortZ
  apply List.Sorted.insertionSort_eq
  rw [List.Sorted, List.pairwise_map]
  exact (List.pairwise_lt_finRange n).imp fun hab => le_of_lt (hmono _ _ hab)

lemma invLab_of_mono (lab : Fin n → ℤ)
    (hmono : ∀ a b : Fin n, a < b → lab a < lab b) (p : Fin n) :
    invLab lab p = some p := by
  have hinj : ∀ a b : Fin n, lab a = lab b → a = b := by
    intro a b hab
    rcases lt_trichotomy a b with hlt | heq | hgt
    · exact absurd hab (ne_of_lt (hmono a b hlt))
    · exact heq
    · exact absurd hab.symm (ne_of_lt (hmono b a hgt))
  have hget : (sortedLabels lab).getD (p : ℕ) 0 = lab p := by
    rw [sortedLabels_of_mono lab hmono]
    have hlen : (p : ℕ) < ((List.finRange n).map lab).length := by
      rw [List.length_map, List.length_finRange]
      exact p.isLt
    rw [List.getD_eq_get _ 0 hlen, List.get_map, List.get_finRange]
  unfold invLab
  rw [hget]
  apply find?_eq_some_of_unique
  · exact List.mem_finRange p
  · simp
  · intro y _ hy
    exact hinj y p (of_decide_eq_true hy)

/-- C6 amended: the round trip matrix → labeled graph → matrix is the
identity whenever the index labels are listed in increasing order (in
particular for the default index set `0..n-1`).  For other index sets
the reconstruction permutes rows and columns by the label-sorting
permutation, as the counterexample shows. -/
theorem c6_roundtrip (M : Fin n → Fin n → ℤ) (lab : Fin n → ℤ)
    (h : IsCoxeterMatrix M)
    (hmono : ∀ a b : Fin n, a < b → lab a < lab b) :
    ∀ p q, rebuiltMatrix M lab p q = M p q := by
  intro p q
  by_cases hpq : p = q
  · rw [hpq, rebuiltMatrix, if_pos rfl, h.2.1 q]
  · rw [rebuiltMatrix, if_neg hpq, invLab_of_mono lab hmono p,
      invLab_of_mono lab hmono q]
    show edgeEntry (if p < q then coxeterGraphEdge M p q
      else coxeterGraphEdge M q p) = M p q
    rcases lt_or_gt_of_ne hpq with hlt | hgt
    · rw [if_pos hlt]
      exact edgeEntry_roundtrip M h hpq
    · rw [if_neg (by omega : ¬ p < q), h.1 p q]
      exact edgeEntry_roundtrip M h (Ne.symm hpq)

/-- Witness for C6 with the identity labeling of the `A_2` matrix. -/
theorem c6_witness :
    IsCoxeterMatrix (matOf 2 [[1, 3], [3, 1]]) ∧
    (∀ a b : Fin 2, a < b → labOf 2 [0, 1] a < labOf 2 [0, 1] b) ∧
    (∀ p q, rebuiltMatrix (matOf 2 [[1, 3], [3, 1]]) (labOf 2 [0, 1]) p q =
      matOf 2 [[1, 3], [3, 1]] p q) :=
  ⟨by decide, by decide,
    c6_roundtrip (matOf 2 [[1, 3], [3, 1]]) (labOf 2 [0, 1]) (by decide)
      (by decide)⟩

/-! ### Claim C8: the crystal digraph -/

/-- C8 counterexample: in `crystalEx` both indices `1` and `2` lower
`false` to `true`, but the dict-of-dicts construction keeps only the
last label, so no edge labeled `1` survives even though
`f 1 false = some true`. -/
theorem c8_counterexample :
    ¬ DigraphClaimC8 crystalEx ∧
    crystalEx.f 1 false = some true ∧ (1 : ℤ) ∈ crystalEx.index ∧
    false ∈ crystalEx.elems ∧
    edgeLabel crystalEx false true = some 2 := by
  refine ⟨?_, by decide, by decide, by decide, by decide⟩
  intro hclaim
  have := hclaim false (by decide) 1 (by decide) true (by decide)
  exact absurd this (by decide)

lemma foldl_overwrite_eq_find_rev {α : Type} (p : α → Bool) (l : List α)
    (acc : Option α) :
    l.foldl (fun a i => if p i = true then some i else a) acc =
      (l.reverse.find? p).elim acc some := by
  induction l using List.reverseRecOn generalizing acc with
  | nil => rfl
  | append_singleton t a ih =>
    rw [List.foldl_append, List.reverse_append]
    simp only [List.reverse_cons, List.reverse_nil, List.nil_append,
      List.foldl_cons, List.foldl_nil, List.cons_append]
    by_cases hpa : p a = true
    · rw [if_pos hpa, List.find?_cons_of_pos _ hpa]
      rfl
    · rw [if_neg hpa, List.find?_cons_of_neg _ hpa]
      exact ih acc

lemma edgeLabel_eq_find_rev {X I : Type} [DecidableEq X] (c : FinCrystal X I)
    (x y : X) :
    edgeLabel c x y =
      c.index.reverse.find? fun i => decide (c.f i x = some y) := by
  unfold edgeLabel
  have h := foldl_overwrite_eq_find_rev
    (fun i => decide (c.f i x = some y)) c.index none
  simp only [decide_eq_true_eq] at h
  rw [h]
  cases c.index.reverse.find? fun i => decide (c.f i x = some y) <;> rfl

/-- C8 amended: for a finite crystal closed under the lowering maps, the
digraph's vertex set is exactly the element set; each ordered pair
`(x, y)` carries at most one edge, whose label is the **last** index `i`
in index-set order with `f i x = y` (a later index overwrites an earlier
one in the dict of dicts); and an edge `x → y` exists iff some index
lowers `x` to `y`. -/
theorem c8_digraph_structure (X I : Type) [DecidableEq X] [DecidableEq I]
    (c : FinCrystal X I)
    (hclosed : ∀ z ∈ c.elems, ∀ i ∈ c.index, ∀ y ∈ (c.f i z).toList,
      y ∈ c.elems) :
    (∀ v, digraphVertex c v ↔ v ∈ c.elems) ∧
    (∀ x y, edgeLabel c x y =
      c.index.reverse.find? fun i => decide (c.f i x = some y)) ∧
    (∀ x y, (edgeLabel c x y).isSome = true ↔
      ∃ i ∈ c.index, c.f i x = some y) := by
  refine ⟨?_, edgeLabel_eq_find_rev c, ?_⟩
  · intro v
    constructor
    · rintro (hv | ⟨z, hz, i, hi, hf⟩)
      · exact hv
      · exact hclosed z hz i hi v (by rw [hf]; exact List.mem_singleton_self v)
    · exact Or.inl
  · intro x y
    rw [edgeLabel_eq_find_rev c x y, List.find?_isSome]
    constructor
    · rintro ⟨i, hi, hp⟩
      exact ⟨i, List.mem_reverse.mp hi, of_decide_eq_true hp⟩
    · rintro ⟨i, hi, hp⟩
      exact ⟨i, List.mem_reverse.mpr hi, decide_eq_true hp⟩

/-- Witness for C8 on the two-element crystal `crystalEx`. -/
theorem c8_witness :
    (∀ z ∈ crystalEx.elems, ∀ i ∈ crystalEx.index,
      ∀ y ∈ (crystalEx.f i z).toList, y ∈ crystalEx.elems) ∧
    ((∀ v, digraphVertex crystalEx v ↔ v ∈ crystalEx.elems) ∧
      (∀ x y, edgeLabel crystalEx x y =
        crystalEx.index.reverse.find? fun i =>
          decide (crystalEx.f i x = some y)) ∧
      (∀ x y, (edgeLabel crystalEx x y).isSome = true ↔
        ∃ i ∈ crystalEx.index, crystalEx.f i x = some y)) :=
  ⟨by decide, c8_digraph_structure Bool ℤ crystalEx (by decide)⟩

end Sage
